import Mathlib

/-!
Verification of the serial receive-buffer core of an STM32F4 mruby/c
firmware (file `stm32f4_uart.c`).  The receive side is a fixed-size
circular FIFO: a DMA engine deposits incoming bytes and advances a write
position that the software only reads; the software owns the read cursor
`rx_rd`.  The definitions below are a shallow embedding of the C
functions: the byte storage is a `List Nat`, machine indices are `Nat`,
and the asynchronously advancing DMA write position is passed in
explicitly — blocking poll loops take a `List Nat` schedule of the write
positions observed at each successive poll, and a poll loop that never
satisfies its exit condition within its schedule returns `none`
(modelling an indefinitely blocked call).
-/

/-- Receive-side state of the C `UART_HANDLE` structure: the DMA target
buffer `rxfifo`, its size, the software read cursor `rx_rd`, and the
line delimiter byte. -/
structure UART_HANDLE where
  rxfifo : List Nat
  rxfifo_size : Nat
  rx_rd : Nat
  delimiter : Nat
deriving DecidableEq, Repr

/-- Embedding of `uart_get_wr_pos`: the DMA write position is
`rxfifo_size - NDTR`, where `NDTR` is the hardware count of transfers
still to go in the current lap. -/
def uart_get_wr_pos (rxfifo_size ndtr : Nat) : Nat :=
  rxfifo_size - ndtr

/-- Embedding of `uart_bytes_available`.  The C function reads the DMA
write position once into `rx_wr` and branches on `rx_rd <= rx_wr`; it is
pure (takes a `const` handle and mutates nothing), which the embedding
reflects by being a plain function. -/
def uart_bytes_available (hndl : UART_HANDLE) (rx_wr : Nat) : Nat :=
  if hndl.rx_rd ≤ rx_wr then rx_wr - hndl.rx_rd
  else hndl.rxfifo_size - hndl.rx_rd + rx_wr

/-- Embedding of the copy-out loop shared by `uart_read` and
`uart_gets`: `*buf++ = hndl->rxfifo[hndl->rx_rd++]; if (hndl->rx_rd >=
hndl->rxfifo_size) hndl->rx_rd = 0;` repeated `ba` times.  Returns the
updated handle and the destination bytes written so far. -/
def uart_read_copy (hndl : UART_HANDLE) : Nat → List Nat → UART_HANDLE × List Nat
  | 0, acc => (hndl, acc)
  | ba + 1, acc =>
    let b := hndl.rxfifo.getD hndl.rx_rd 0
    let rd1 := hndl.rx_rd + 1
    uart_read_copy
      { hndl with rx_rd := if hndl.rxfifo_size ≤ rd1 then 0 else rd1 }
      ba (acc ++ [b])

/-- Embedding of the `while (cnt > 0)` poll loop of `uart_read`: each
iteration reads the DMA write position (one schedule entry), computes
`ba = uart_bytes_available`, spins when `ba == 0`, otherwise copies
`min ba cnt` bytes out of the FIFO.  `none` means the schedule ran out
with the loop still spinning, i.e. the call is still blocked. -/
def uart_read_loop : UART_HANDLE → List Nat → Nat → List Nat →
    Option (UART_HANDLE × List Nat)
  | hndl, _, 0, acc => some (hndl, acc)
  | _, [], _ + 1, _ => none
  | hndl, rx_wr :: rest, cnt + 1, acc =>
    let ba := uart_bytes_available hndl rx_wr
    if ba = 0 then uart_read_loop hndl rest (cnt + 1) acc
    else
      let tk := min ba (cnt + 1)
      let p := uart_read_copy hndl tk acc
      uart_read_loop p.1 rest (cnt + 1 - tk) p.2

/-- Embedding of `uart_read`: blocks until `size` bytes have been
copied, then returns `size` (the C function's return value), the bytes
placed in the caller's buffer, and the updated handle. -/
def uart_read (hndl : UART_HANDLE) (sched : List Nat) (size : Nat) :
    Option (Nat × List Nat × UART_HANDLE) :=
  match uart_read_loop hndl sched size [] with
  | none => none
  | some p => some (size, p.2, p.1)

/-- Embedding of the scan loop of `uart_can_read_line`: walk `idx` from
`rx_rd` toward the captured write position `rx_wr`, wrapping at
`rxfifo_size`; on the first delimiter return the line length computed
from the post-increment index, exactly as the C source does.  `fuel`
bounds the walk; the callers pass `rxfifo_size`, which the proofs show
is enough for every reachable cursor pair. -/
def uart_can_read_line_loop (hndl : UART_HANDLE) (rx_wr : Nat) :
    Nat → Nat → Nat
  | _, 0 => 0
  | idx, fuel + 1 =>
    if idx = rx_wr then 0
    else if hndl.rxfifo.getD idx 0 = hndl.delimiter then
      (if hndl.rx_rd < idx + 1 then idx + 1 - hndl.rx_rd
       else hndl.rxfifo_size - hndl.rx_rd + (idx + 1))
    else
      uart_can_read_line_loop hndl rx_wr
        (if hndl.rxfifo_size ≤ idx + 1 then 0 else idx + 1) fuel

/-- Embedding of `uart_can_read_line`: the DMA write position is read
once (`rx_wr`) and the scan starts at `rx_rd`.  Pure: the C function
takes a `const` handle and mutates nothing. -/
def uart_can_read_line (hndl : UART_HANDLE) (rx_wr : Nat) : Nat :=
  uart_can_read_line_loop hndl rx_wr hndl.rx_rd hndl.rxfifo_size

/-- Embedding of `uart_gets`: poll `uart_can_read_line` until it is
positive (one schedule entry per poll; `none` models blocking forever),
then fail with `-1` when `len >= size`, otherwise copy the `len` line
bytes and append the `NUL` terminator that the C code stores after
them. -/
def uart_gets (hndl : UART_HANDLE) (sched : List Nat) (size : Nat) :
    Option (Int × List Nat × UART_HANDLE) :=
  match sched with
  | [] => none
  | rx_wr :: rest =>
    let len := uart_can_read_line hndl rx_wr
    if len = 0 then uart_gets hndl rest size
    else if size ≤ len then some (-1, [], hndl)
    else
      let p := uart_read_copy hndl len []
      some ((len : Int), p.2 ++ [0], p.1)

/-- Embedding of `uart_clear_rx_buffer`: `hndl->rx_rd =
uart_get_wr_pos(hndl);` — the write position is read once and becomes
the new read cursor. -/
def uart_clear_rx_buffer (hndl : UART_HANDLE) (rx_wr : Nat) : UART_HANDLE :=
  { hndl with rx_rd := rx_wr }

/-- Status type of the vendor HAL transmit call. -/
inductive HAL_StatusTypeDef where
  | HAL_OK
  | HAL_ERROR
  | HAL_BUSY
  | HAL_TIMEOUT
deriving DecidableEq, Repr

/-- Embedding of `uart_write`: the C body is
`HAL_UART_Transmit(hndl->hal_uart, buffer, size, HAL_MAX_DELAY); return
size;` — the HAL status is discarded, so the embedding takes the status
the HAL call produced and shows it does not influence the result. -/
def uart_write (transmit_status : HAL_StatusTypeDef) (size : Int) : Int :=
  size

/-- Symbolic encodings of the HAL configuration constants used by
`uart_setmode`; their concrete register values are irrelevant here, only
their identity matters. -/
def UART_PARITY_NONE : Nat := 0

def UART_PARITY_ODD : Nat := 1

def UART_PARITY_EVEN : Nat := 2

def UART_WORDLENGTH_8B : Nat := 0

def UART_WORDLENGTH_9B : Nat := 1

def UART_STOPBITS_1 : Nat := 0

def UART_STOPBITS_2 : Nat := 1

/-- Configuration fields of the HAL `UART_InitTypeDef` that
`uart_setmode` touches. -/
structure UART_InitTypeDef where
  BaudRate : Int
  Parity : Nat
  WordLength : Nat
  StopBits : Nat
deriving DecidableEq, Repr

/-- Embedding of `uart_setmode`: update the `Init` fields for every
parameter that is not the "leave unchanged" sentinel, then run
`HAL_UART_Init` (modelled by the `hal_init_ok` flag); return `-1` on HAL
failure, `0` on success, together with the (already mutated)
configuration. -/
def uart_setmode (init : UART_InitTypeDef) (hal_init_ok : Bool)
    (baud parity stop_bits : Int) : Int × UART_InitTypeDef :=
  let i1 := if 0 ≤ baud then { init with BaudRate := baud } else init
  let i2 :=
    if parity = 0 then
      { i1 with Parity := UART_PARITY_NONE, WordLength := UART_WORDLENGTH_8B }
    else if parity = 1 then
      { i1 with Parity := UART_PARITY_ODD, WordLength := UART_WORDLENGTH_9B }
    else if parity = 2 then
      { i1 with Parity := UART_PARITY_EVEN, WordLength := UART_WORDLENGTH_9B }
    else i1
  let i3 :=
    if 1 ≤ stop_bits ∧ stop_bits ≤ 2 then
      { i2 with StopBits := if stop_bits = 1 then UART_STOPBITS_1 else UART_STOPBITS_2 }
    else i2
  if hal_init_ok then (0, i3) else (-1, i3)

/-- Outcome of the Ruby-facing `setmode` binding: normal return, or one
of the two exceptions it can raise. -/
inductive SetmodeOutcome where
  | ok
  | argError
  | notImplError
deriving DecidableEq, Repr

/-- Keyword arguments of `c_uart_setmode`.  `none` for an `Option`
field, or `false` for a `Bool` field, means the keyword was not given;
for the five unsupported options only presence matters, since any given
value triggers `NotImplementedError`. -/
structure SetmodeArgs where
  baudrate : Option Int
  baud : Option Int
  data_bits_given : Bool
  stop_bits : Option Int
  parity : Option Int
  flow_control_given : Bool
  txd_pin_given : Bool
  rxd_pin_given : Bool
  rts_pin_given : Bool
  cts_pin_given : Bool
deriving DecidableEq, Repr

/-- Embedding of the decision logic of `c_uart_setmode`: `baud`
overrides `baudrate`, any unsupported keyword raises
`NotImplementedError` before anything is applied, a positive baud below
2400 raises `ArgumentError` without calling `uart_setmode`, and a
failing `uart_setmode` raises `ArgumentError` after the configuration
fields were already written. -/
def c_uart_setmode (init : UART_InitTypeDef) (hal_init_ok : Bool)
    (a : SetmodeArgs) : SetmodeOutcome × UART_InitTypeDef :=
  let baud_rate : Int :=
    match a.baud with
    | some b => b
    | none =>
      match a.baudrate with
      | some b => b
      | none => -1
  if a.data_bits_given || a.flow_control_given || a.txd_pin_given
      || a.rxd_pin_given || a.rts_pin_given || a.cts_pin_given then
    (SetmodeOutcome.notImplError, init)
  else
    let stop_bits : Int :=
      match a.stop_bits with
      | some v => v
      | none => -1
    let parity : Int :=
      match a.parity with
      | some v => v
      | none => -1
    if 0 < baud_rate ∧ baud_rate < 2400 then (SetmodeOutcome.argError, init)
    else
      let p := uart_setmode init hal_init_ok baud_rate parity stop_bits
      if p.1 ≠ 0 then (SetmodeOutcome.argError, p.2)
      else (SetmodeOutcome.ok, p.2)

/-! Helper lemmas about the wrap arithmetic shared by the consumer-side
operations. -/

theorem wrap_eq_mod (C i : Nat) (h : i < C) :
    (if C ≤ i + 1 then 0 else i + 1) = (i + 1) % C := by
  rcases Nat.lt_or_ge (i + 1) C with h1 | h1
  · rw [if_neg (by omega), Nat.mod_eq_of_lt h1]
  · have h2 : i + 1 = C := by omega
    rw [if_pos (by omega), h2, Nat.mod_self]

theorem uart_bytes_available_lt (hndl : UART_HANDLE) (rx_wr : Nat)
    (hrd : hndl.rx_rd < hndl.rxfifo_size) (hwr : rx_wr < hndl.rxfifo_size) :
    uart_bytes_available hndl rx_wr < hndl.rxfifo_size := by
  unfold uart_bytes_available
  split <;> omega

theorem uart_bytes_available_wr (hndl : UART_HANDLE) (rx_wr : Nat)
    (hrd : hndl.rx_rd < hndl.rxfifo_size) (hwr : rx_wr < hndl.rxfifo_size) :
    (hndl.rx_rd + uart_bytes_available hndl rx_wr) % hndl.rxfifo_size = rx_wr := by
  unfold uart_bytes_available
  split
  · have h1 : hndl.rx_rd + (rx_wr - hndl.rx_rd) = rx_wr := by omega
    rw [h1, Nat.mod_eq_of_lt hwr]
  · have h1 : hndl.rx_rd + (hndl.rxfifo_size - hndl.rx_rd + rx_wr)
        = hndl.rxfifo_size + rx_wr := by omega
    rw [h1, Nat.add_mod_left, Nat.mod_eq_of_lt hwr]

theorem uart_bytes_available_add (hndl : UART_HANDLE) (N : Nat)
    (hrd : hndl.rx_rd < hndl.rxfifo_size) (hN : N < hndl.rxfifo_size) :
    uart_bytes_available hndl ((hndl.rx_rd + N) % hndl.rxfifo_size) = N := by
  rcases Nat.lt_or_ge (hndl.rx_rd + N) hndl.rxfifo_size with h | h
  · rw [Nat.mod_eq_of_lt h]
    unfold uart_bytes_available
    rw [if_pos (by omega)]
    omega
  · have h2 : (hndl.rx_rd + N) % hndl.rxfifo_size
        = hndl.rx_rd + N - hndl.rxfifo_size := by
      rw [Nat.mod_eq_sub_mod h, Nat.mod_eq_of_lt (by omega)]
    rw [h2]
    unfold uart_bytes_available
    rw [if_neg (by omega)]
    omega

theorem map_range_split (f : Nat → Nat) (a b : Nat) :
    (List.range (a + b)).map f
      = (List.range a).map f ++ (List.range b).map fun i => f (a + i) := by
  rw [List.range_add, List.map_append, List.map_map]
  rfl

theorem uart_read_copy_spec :
    ∀ (n : Nat) (hndl : UART_HANDLE) (acc : List Nat),
      0 < hndl.rxfifo_size → hndl.rx_rd < hndl.rxfifo_size →
      uart_read_copy hndl n acc
        = ({ hndl with rx_rd := (hndl.rx_rd + n) % hndl.rxfifo_size },
           acc ++ (List.range n).map fun i =>
             hndl.rxfifo.getD ((hndl.rx_rd + i) % hndl.rxfifo_size) 0) := by
  intro n
  induction n with
  | zero =>
    intro hndl acc hC hrd
    simp [uart_read_copy, Nat.mod_eq_of_lt hrd]
  | succ n ih =>
    intro hndl acc hC hrd
    simp only [uart_read_copy]
    rw [wrap_eq_mod _ _ hrd]
    rw [ih { hndl with rx_rd := (hndl.rx_rd + 1) % hndl.rxfifo_size }
        (acc ++ [hndl.rxfifo.getD hndl.rx_rd 0]) (by simpa using hC)
        (by simpa using Nat.mod_lt (hndl.rx_rd + 1) hC)]
    refine Prod.ext ?_ ?_
    · show ({ hndl with rx_rd := ((hndl.rx_rd + 1) % hndl.rxfifo_size + n) % hndl.rxfifo_size } : UART_HANDLE)
        = { hndl with rx_rd := (hndl.rx_rd + (n + 1)) % hndl.rxfifo_size }
      rw [Nat.mod_add_mod, Nat.add_assoc, Nat.add_comm 1 n]
    · show acc ++ [hndl.rxfifo.getD hndl.rx_rd 0]
          ++ (List.range n).map (fun i =>
            hndl.rxfifo.getD (((hndl.rx_rd + 1) % hndl.rxfifo_size + i) % hndl.rxfifo_size) 0)
        = acc ++ (List.range (n + 1)).map fun i =>
            hndl.rxfifo.getD ((hndl.rx_rd + i) % hndl.rxfifo_size) 0
      rw [List.range_succ_eq_map, List.map_cons, List.map_map, List.append_assoc]
      simp only [Nat.add_zero, Nat.mod_eq_of_lt hrd, List.singleton_append,
        Function.comp_def, Nat.mod_add_mod, Nat.add_mod_mod, Nat.succ_eq_add_one,
        Nat.add_comm, Nat.add_left_comm, Nat.add_assoc]

theorem uart_read_copy_len :
    ∀ (n : Nat) (hndl : UART_HANDLE) (acc : List Nat),
      (uart_read_copy hndl n acc).2.length = acc.length + n := by
  intro n
  induction n with
  | zero => intro hndl acc; simp [uart_read_copy]
  | succ n ih =>
    intro hndl acc
    simp only [uart_read_copy]
    rw [ih]
    simp
    omega

theorem uart_read_loop_some_spec :
    ∀ (sched : List Nat) (hndl : UART_HANDLE) (cnt : Nat) (acc out : List Nat)
      (h' : UART_HANDLE),
      0 < hndl.rxfifo_size → hndl.rx_rd < hndl.rxfifo_size →
      uart_read_loop hndl sched cnt acc = some (h', out) →
      h' = { hndl with rx_rd := (hndl.rx_rd + cnt) % hndl.rxfifo_size } ∧
      out = acc ++ (List.range cnt).map fun i =>
        hndl.rxfifo.getD ((hndl.rx_rd + i) % hndl.rxfifo_size) 0 := by
  intro sched
  induction sched with
  | nil =>
    intro hndl cnt acc out h' hC hrd h
    cases cnt with
    | zero =>
      simp only [uart_read_loop, Option.some.injEq, Prod.mk.injEq] at h
      simp [← h.1, ← h.2, Nat.mod_eq_of_lt hrd]
    | succ n => simp [uart_read_loop] at h
  | cons rx_wr rest ih =>
    intro hndl cnt acc out h' hC hrd h
    cases cnt with
    | zero =>
      simp only [uart_read_loop, Option.some.injEq, Prod.mk.injEq] at h
      simp [← h.1, ← h.2, Nat.mod_eq_of_lt hrd]
    | succ n =>
      simp only [uart_read_loop] at h
      by_cases hba : uart_bytes_available hndl rx_wr = 0
      · rw [if_pos hba] at h
        exact ih hndl (n + 1) acc out h' hC hrd h
      · rw [if_neg hba] at h
        rw [uart_read_copy_spec (min (uart_bytes_available hndl rx_wr) (n + 1))
          hndl acc hC hrd] at h
        have htk : min (uart_bytes_available hndl rx_wr) (n + 1) ≤ n + 1 :=
          min_le_right _ _
        obtain ⟨h1, h2⟩ := ih _ (n + 1 - min (uart_bytes_available hndl rx_wr) (n + 1))
          _ out h' (by simpa using hC)
          (by simpa using Nat.mod_lt _ hC) h
        constructor
        · rw [h1]
          show ({ hndl with rx_rd := ((hndl.rx_rd + _) % hndl.rxfifo_size + _) % hndl.rxfifo_size } : UART_HANDLE) = _
          rw [Nat.mod_add_mod, Nat.add_assoc, Nat.add_sub_cancel' htk]
        · rw [h2]
          simp only [List.append_assoc]
          have hsplit : n + 1 = min (uart_bytes_available hndl rx_wr) (n + 1)
              + (n + 1 - min (uart_bytes_available hndl rx_wr) (n + 1)) := by omega
          conv_rhs => rw [hsplit]
          rw [map_range_split]
          simp only [Nat.mod_add_mod, Nat.add_comm, Nat.add_left_comm, Nat.add_assoc,
            Nat.add_mod_mod]

theorem uart_read_loop_complete (hndl : UART_HANDLE) (rx_wr : Nat)
    (rest acc : List Nat) (cnt : Nat)
    (hC : 0 < hndl.rxfifo_size) (hrd : hndl.rx_rd < hndl.rxfifo_size)
    (hcnt : 0 < cnt) (hba : cnt ≤ uart_bytes_available hndl rx_wr) :
    uart_read_loop hndl (rx_wr :: rest) cnt acc =
      some ({ hndl with rx_rd := (hndl.rx_rd + cnt) % hndl.rxfifo_size },
        acc ++ (List.range cnt).map fun i =>
          hndl.rxfifo.getD ((hndl.rx_rd + i) % hndl.rxfifo_size) 0) := by
  obtain ⟨n, rfl⟩ : ∃ n, cnt = n + 1 := ⟨cnt - 1, by omega⟩
  simp only [uart_read_loop]
  rw [if_neg (by omega)]
  have hmin : min (uart_bytes_available hndl rx_wr) (n + 1) = n + 1 := by omega
  rw [hmin, uart_read_copy_spec (n + 1) hndl acc hC hrd]
  simp [uart_read_loop]

theorem uart_read_loop_starved :
    ∀ (m : Nat) (hndl : UART_HANDLE) (rx_wr cnt : Nat) (acc : List Nat),
      0 < hndl.rxfifo_size → hndl.rx_rd < hndl.rxfifo_size →
      rx_wr < hndl.rxfifo_size →
      uart_bytes_available hndl rx_wr < cnt →
      uart_read_loop hndl (List.replicate m rx_wr) cnt acc = none := by
  intro m
  induction m with
  | zero =>
    intro hndl rx_wr cnt acc hC hrd hwr hlt
    obtain ⟨n, rfl⟩ : ∃ n, cnt = n + 1 := ⟨cnt - 1, by omega⟩
    simp [uart_read_loop]
  | succ m ih =>
    intro hndl rx_wr cnt acc hC hrd hwr hlt
    obtain ⟨n, rfl⟩ : ∃ n, cnt = n + 1 := ⟨cnt - 1, by omega⟩
    rw [List.replicate_succ]
    simp only [uart_read_loop]
    by_cases hba : uart_bytes_available hndl rx_wr = 0
    · rw [if_pos hba]
      exact ih hndl rx_wr (n + 1) acc hC hrd hwr hlt
    · rw [if_neg hba]
      have hmin : min (uart_bytes_available hndl rx_wr) (n + 1)
          = uart_bytes_available hndl rx_wr := by omega
      rw [hmin, uart_read_copy_spec (uart_bytes_available hndl rx_wr) hndl acc hC hrd,
        uart_bytes_available_wr hndl rx_wr hrd hwr]
      apply ih
      · simpa using hC
      · simpa using hwr
      · simpa using hwr
      · have h0 : uart_bytes_available { hndl with rx_rd := rx_wr } rx_wr = 0 := by
          simp [uart_bytes_available]
        rw [h0]
        omega

theorem scan_idx_ne_wr (hndl : UART_HANDLE) (rx_wr j : Nat)
    (hrd : hndl.rx_rd < hndl.rxfifo_size) (hwr : rx_wr < hndl.rxfifo_size)
    (hj : j < uart_bytes_available hndl rx_wr) :
    (hndl.rx_rd + j) % hndl.rxfifo_size ≠ rx_wr := by
  intro heq
  have ha := uart_bytes_available_wr hndl rx_wr hrd hwr
  have hlt := uart_bytes_available_lt hndl rx_wr hrd hwr
  rw [← ha] at heq
  have hmod : j % hndl.rxfifo_size
      = uart_bytes_available hndl rx_wr % hndl.rxfifo_size :=
    Nat.ModEq.add_left_cancel' hndl.rx_rd heq
  rw [Nat.mod_eq_of_lt (by omega), Nat.mod_eq_of_lt hlt] at hmod
  omega

theorem scan_found_value (hndl : UART_HANDLE) (rx_wr k : Nat)
    (hrd : hndl.rx_rd < hndl.rxfifo_size) (hwr : rx_wr < hndl.rxfifo_size)
    (hk : k < uart_bytes_available hndl rx_wr) :
    (if hndl.rx_rd < (hndl.rx_rd + k) % hndl.rxfifo_size + 1
     then (hndl.rx_rd + k) % hndl.rxfifo_size + 1 - hndl.rx_rd
     else hndl.rxfifo_size - hndl.rx_rd + ((hndl.rx_rd + k) % hndl.rxfifo_size + 1))
      = k + 1 := by
  have hlt := uart_bytes_available_lt hndl rx_wr hrd hwr
  rcases Nat.lt_or_ge (hndl.rx_rd + k) hndl.rxfifo_size with h | h
  · rw [Nat.mod_eq_of_lt h, if_pos (by omega)]
    omega
  · have h2 : (hndl.rx_rd + k) % hndl.rxfifo_size
        = hndl.rx_rd + k - hndl.rxfifo_size := by
      rw [Nat.mod_eq_sub_mod h, Nat.mod_eq_of_lt (by omega)]
    rw [h2, if_neg (by omega)]
    omega

theorem uart_can_read_line_loop_spec (hndl : UART_HANDLE) (rx_wr : Nat)
    (hC : 0 < hndl.rxfifo_size) (hrd : hndl.rx_rd < hndl.rxfifo_size)
    (hwr : rx_wr < hndl.rxfifo_size) :
    ∀ (n j fuel : Nat), j + n = uart_bytes_available hndl rx_wr → n < fuel →
      uart_can_read_line_loop hndl rx_wr
          ((hndl.rx_rd + j) % hndl.rxfifo_size) fuel
        = match (List.range' j n).find? (fun k =>
              decide (hndl.rxfifo.getD ((hndl.rx_rd + k) % hndl.rxfifo_size) 0
                = hndl.delimiter)) with
          | some k => k + 1
          | none => 0 := by
  intro n
  induction n with
  | zero =>
    intro j fuel hsum hfuel
    obtain ⟨f, rfl⟩ : ∃ f, fuel = f + 1 := ⟨fuel - 1, by omega⟩
    have hj : j = uart_bytes_available hndl rx_wr := by omega
    rw [hj, uart_bytes_available_wr hndl rx_wr hrd hwr]
    simp [uart_can_read_line_loop]
  | succ n ih =>
    intro j fuel hsum hfuel
    obtain ⟨f, rfl⟩ : ∃ f, fuel = f + 1 := ⟨fuel - 1, by omega⟩
    have hjlt : j < uart_bytes_available hndl rx_wr := by omega
    have hne := scan_idx_ne_wr hndl rx_wr j hrd hwr hjlt
    simp only [uart_can_read_line_loop]
    rw [if_neg hne, List.range'_succ j n 1, List.find?_cons]
    by_cases hd : hndl.rxfifo.getD ((hndl.rx_rd + j) % hndl.rxfifo_size) 0
        = hndl.delimiter
    · rw [if_pos hd, scan_found_value hndl rx_wr j hrd hwr hjlt,
        decide_eq_true hd]
    · rw [if_neg hd, wrap_eq_mod _ _ (Nat.mod_lt _ hC), Nat.mod_add_mod,
        Nat.add_assoc]
      rw [ih (j + 1) f (by omega) (by omega), decide_eq_false hd]

/-- C2: for every read cursor and write position in `[0, capacity)`,
`uart_bytes_available` returns exactly `(write_cursor - read_cursor) mod
capacity` (computed over the integers, where the result of `mod` by a
positive modulus is non-negative), and the result is `< capacity`.  The
function is a pure query: the embedding is a plain function of the
handle and the captured write position, mirroring the `const` C
function. -/
theorem uart_bytes_available_mod_range (hndl : UART_HANDLE) (rx_wr : Nat)
    (hC : 0 < hndl.rxfifo_size) (hrd : hndl.rx_rd < hndl.rxfifo_size)
    (hwr : rx_wr < hndl.rxfifo_size) :
    ((uart_bytes_available hndl rx_wr : Int)
        = ((rx_wr : Int) - (hndl.rx_rd : Int)) % (hndl.rxfifo_size : Int)) ∧
      uart_bytes_available hndl rx_wr < hndl.rxfifo_size := by
  refine ⟨?_, uart_bytes_available_lt hndl rx_wr hrd hwr⟩
  unfold uart_bytes_available
  split
  · rw [Int.emod_eq_of_lt (by omega) (by omega)]
    omega
  · have h1 : ((rx_wr : Int) - hndl.rx_rd) % hndl.rxfifo_size
        = ((rx_wr : Int) - hndl.rx_rd + hndl.rxfifo_size) % hndl.rxfifo_size := by
      have h2 := Int.add_mul_emod_self_left
        ((rx_wr : Int) - hndl.rx_rd) (hndl.rxfifo_size : Int) 1
      rw [mul_one] at h2
      exact h2.symm
    rw [h1, Int.emod_eq_of_lt (by omega) (by omega)]
    omega

/-- C2 witness at a wrapped cursor pair: capacity 4, read cursor 3,
write position 1. -/
theorem uart_bytes_available_mod_range_witness :
    ((uart_bytes_available ⟨[100, 101, 10, 102], 4, 3, 10⟩ 1 : Int)
        = ((1 : Int) - (3 : Int)) % (4 : Int)) ∧
      uart_bytes_available ⟨[100, 101, 10, 102], 4, 3, 10⟩ 1 < 4 := by
  exact uart_bytes_available_mod_range ⟨[100, 101, 10, 102], 4, 3, 10⟩ 1
    (by decide) (by decide) (by decide)

/-- C6: `uart_clear_rx_buffer` sets the read cursor to the write
position captured once at the instant of the call, and
`uart_bytes_available` computed against that captured write position is
`0` immediately afterwards — for every handle and every captured
position, so in particular whatever the concurrently advancing engine
had made the position at that instant. -/
theorem uart_clear_rx_buffer_resets_available (hndl : UART_HANDLE) (rx_wr : Nat) :
    (uart_clear_rx_buffer hndl rx_wr).rx_rd = rx_wr ∧
      uart_bytes_available (uart_clear_rx_buffer hndl rx_wr) rx_wr = 0 := by
  exact ⟨rfl, by simp [uart_clear_rx_buffer, uart_bytes_available]⟩

/-- C8 counterexample: the claim says the transmit path surfaces a
hardware transmit failure as a status distinguishable from success; at
the concrete input of a 5-byte send whose HAL transmit reports
`HAL_BUSY`, `uart_write` returns `5` — the full requested count,
identical to the fully successful send — so the failure is not
distinguishable. -/
theorem uart_write_failure_indistinguishable :
    uart_write HAL_StatusTypeDef.HAL_BUSY 5 = 5 ∧
      uart_write HAL_StatusTypeDef.HAL_BUSY 5
        = uart_write HAL_StatusTypeDef.HAL_OK 5 :=
  ⟨rfl, rfl⟩

/-- C8 amended: `uart_write` discards the status of the HAL transmit
call and returns the requested byte count unconditionally, so a
transmit failure is not distinguishable from success in its return
value and no underlying status code is embedded. -/
theorem uart_write_returns_size_unconditionally
    (transmit_status : HAL_StatusTypeDef) (size : Int) :
    uart_write transmit_status size = size :=
  rfl

/-- C7 counterexample: an explicitly requested baud rate of `0` is below
the 2400 minimum threshold, yet `c_uart_setmode` does not fail — its
guard is `baud_rate > 0 && baud_rate < 2400` — and the configuration is
changed: the baud-rate field becomes `0` and a successful HAL re-init
applies it. -/
theorem c_uart_setmode_zero_baud_counterexample :
    (0 : Int) < 2400 ∧
      c_uart_setmode ⟨115200, 0, 0, 0⟩ true
          ⟨none, some 0, false, none, none, false, false, false, false, false⟩
        = (SetmodeOutcome.ok, ⟨0, 0, 0, 0⟩) := by
  decide

/-- C7 amended: when none of the unsupported options is requested (any
of those takes precedence and raises `NotImplementedError` instead) and
the explicitly requested baud rate `b` satisfies `0 < b < 2400`,
`c_uart_setmode` fails with `ArgumentError` and leaves the configuration
unchanged — `uart_setmode` is never invoked.  The claim's original
quantification over every baud rate below 2400 is false for `b = 0`,
which the `baud_rate > 0` conjunct lets through to the hardware. -/
theorem c_uart_setmode_rejects_low_positive_baud (init : UART_InitTypeDef)
    (hal_init_ok : Bool) (a : SetmodeArgs) (b : Int)
    (hflags : a.data_bits_given = false ∧ a.flow_control_given = false
      ∧ a.txd_pin_given = false ∧ a.rxd_pin_given = false
      ∧ a.rts_pin_given = false ∧ a.cts_pin_given = false)
    (hb : a.baud = some b) (h0 : 0 < b) (h1 : b < 2400) :
    c_uart_setmode init hal_init_ok a = (SetmodeOutcome.argError, init) := by
  obtain ⟨f1, f2, f3, f4, f5, f6⟩ := hflags
  simp [c_uart_setmode, hb, f1, f2, f3, f4, f5, f6, h0, h1]

/-- C7 witness: requested baud 1200 with no unsupported options fails
with `ArgumentError` and the configuration is untouched. -/
theorem c_uart_setmode_rejects_low_positive_baud_witness :
    c_uart_setmode ⟨115200, 0, 0, 0⟩ true
        ⟨none, some 1200, false, none, none, false, false, false, false, false⟩
      = (SetmodeOutcome.argError, ⟨115200, 0, 0, 0⟩) := by
  exact c_uart_setmode_rejects_low_positive_baud ⟨115200, 0, 0, 0⟩ true
    ⟨none, some 1200, false, none, none, false, false, false, false, false⟩ 1200
    (by decide) rfl (by decide) (by decide)

/-- C1: wraparound correctness of the consume path of `uart_read` — if
the engine has written `N < capacity` bytes beyond the read cursor (the
captured write position is `read_cursor + N mod capacity`), reading `N`
bytes copies exactly the `N` FIFO slots starting at the read cursor, in
FIFO order, wrapping past the physical end of the storage array, for
every starting read cursor in `[0, capacity)`. -/
theorem uart_read_wraparound_order (hndl : UART_HANDLE) (N : Nat)
    (hC : 0 < hndl.rxfifo_size) (hrd : hndl.rx_rd < hndl.rxfifo_size)
    (hN : N < hndl.rxfifo_size) :
    uart_read hndl [(hndl.rx_rd + N) % hndl.rxfifo_size] N =
      some (N,
        (List.range N).map (fun i =>
          hndl.rxfifo.getD ((hndl.rx_rd + i) % hndl.rxfifo_size) 0),
        { hndl with rx_rd := (hndl.rx_rd + N) % hndl.rxfifo_size }) := by
  unfold uart_read
  cases N with
  | zero =>
    simp [uart_read_loop, Nat.mod_eq_of_lt hrd]
  | succ n =>
    rw [uart_read_loop_complete hndl ((hndl.rx_rd + (n + 1)) % hndl.rxfifo_size)
      [] [] (n + 1) hC hrd (by omega)
      (by rw [uart_bytes_available_add hndl (n + 1) hrd hN])]
    simp

/-- C1 witness: capacity 4, read cursor 3 (at the physical end), three
pending bytes that wrap; the copy reproduces them in FIFO order. -/
theorem uart_read_wraparound_order_witness :
    uart_read ⟨[100, 101, 10, 102], 4, 3, 10⟩ [2] 3 =
      some (3, [102, 100, 101], ⟨[100, 101, 10, 102], 4, 2, 10⟩) := by
  exact (uart_read_wraparound_order ⟨[100, 101, 10, 102], 4, 3, 10⟩ 3
    (by decide) (by decide) (by decide)).trans (by decide)

/-- C5: `uart_read` never returns a partial result.  For every poll
schedule — including the engine advancing the write position one byte at
a time — whenever the call returns, it returns exactly `size` and the
destination holds exactly, in order, the next `size` bytes after the
read cursor, with no duplication and no omission; and for a schedule in
which the engine delivers fewer than `size` bytes and then stops
(every poll observes the same write position, with fewer than `size`
bytes available), the call never returns, however long the schedule. -/
theorem uart_read_exact_no_byte_loss (hndl : UART_HANDLE) (size : Nat)
    (hC : 0 < hndl.rxfifo_size) (hrd : hndl.rx_rd < hndl.rxfifo_size) :
    (∀ (sched : List Nat) (r : Nat) (out : List Nat) (h' : UART_HANDLE),
        uart_read hndl sched size = some (r, out, h') →
        r = size ∧
          out = (List.range size).map fun i =>
            hndl.rxfifo.getD ((hndl.rx_rd + i) % hndl.rxfifo_size) 0) ∧
      (∀ (rx_wr m : Nat), rx_wr < hndl.rxfifo_size →
        uart_bytes_available hndl rx_wr < size →
        uart_read hndl (List.replicate m rx_wr) size = none) := by
  constructor
  · intro sched r out h' h
    unfold uart_read at h
    cases hloop : uart_read_loop hndl sched size [] with
    | none => rw [hloop] at h; simp at h
    | some p =>
      rw [hloop] at h
      simp only [Option.some.injEq, Prod.mk.injEq] at h
      obtain ⟨hr, hout, hh⟩ := h
      obtain ⟨h1, h2⟩ := uart_read_loop_some_spec sched hndl size [] p.2 p.1
        hC hrd (by rw [hloop])
      refine ⟨hr.symm, ?_⟩
      rw [← hout, h2]
      simp
  · intro rx_wr m hwr hlt
    unfold uart_read
    rw [uart_read_loop_starved m hndl rx_wr size [] hC hrd hwr hlt]

/-- C5 witness: the engine advances the write position by one byte
between consecutive polls (schedule `[0, 1, 2]` from read cursor 3 in a
capacity-4 buffer); the three bytes delivered are returned exactly and
in order. -/
theorem uart_read_exact_no_byte_loss_witness :
    3 = 3 ∧
      [102, 100, 101] = (List.range 3).map fun i =>
        ([100, 101, 10, 102] : List Nat).getD ((3 + i) % 4) 0 := by
  exact (uart_read_exact_no_byte_loss ⟨[100, 101, 10, 102], 4, 3, 10⟩ 3
    (by decide) (by decide)).1 [0, 1, 2] 3 [102, 100, 101]
    ⟨[100, 101, 10, 102], 4, 2, 10⟩ (by decide)

/-- C3: `uart_can_read_line`, scanning from the read cursor toward the
write position captured once at the start of the call and wrapping at
capacity, returns `k + 1` when the first delimiter among the available
bytes sits at scan-relative offset `k` (the first hit of `find?` over
the available offsets), and `0` when no delimiter occurs there — in
particular `0` whenever the read cursor equals the captured write
position.  The embedding is a plain function: the call mutates
nothing. -/
theorem uart_can_read_line_first_delimiter (hndl : UART_HANDLE) (rx_wr : Nat)
    (hC : 0 < hndl.rxfifo_size) (hrd : hndl.rx_rd < hndl.rxfifo_size)
    (hwr : rx_wr < hndl.rxfifo_size) :
    (uart_can_read_line hndl rx_wr
        = match (List.range (uart_bytes_available hndl rx_wr)).find? (fun k =>
              decide (hndl.rxfifo.getD ((hndl.rx_rd + k) % hndl.rxfifo_size) 0
                = hndl.delimiter)) with
          | some k => k + 1
          | none => 0) ∧
      (hndl.rx_rd = rx_wr → uart_can_read_line hndl rx_wr = 0) := by
  have hspec := uart_can_read_line_loop_spec hndl rx_wr hC hrd hwr
    (uart_bytes_available hndl rx_wr) 0 hndl.rxfifo_size (by omega)
    (uart_bytes_available_lt hndl rx_wr hrd hwr)
  have h0 : (hndl.rx_rd + 0) % hndl.rxfifo_size = hndl.rx_rd := by
    rw [Nat.add_zero, Nat.mod_eq_of_lt hrd]
  rw [h0] at hspec
  have hmain : uart_can_read_line hndl rx_wr
      = match (List.range (uart_bytes_available hndl rx_wr)).find? (fun k =>
            decide (hndl.rxfifo.getD ((hndl.rx_rd + k) % hndl.rxfifo_size) 0
              = hndl.delimiter)) with
        | some k => k + 1
        | none => 0 := by
    rw [uart_can_read_line, hspec, List.range_eq_range']
  refine ⟨hmain, fun he => ?_⟩
  have ha : uart_bytes_available hndl rx_wr = 0 := by
    simp [uart_bytes_available, he]
  rw [hmain, ha]
  rfl

/-- C3 witness: capacity 4, read cursor 2, write position 1; the first
delimiter is found after the scan wraps past the physical end, at
scan-relative offset 2, so the call returns 3. -/
theorem uart_can_read_line_first_delimiter_witness :
    uart_can_read_line ⟨[10, 101, 102, 100], 4, 2, 10⟩ 1 = 3 := by
  exact ((uart_can_read_line_first_delimiter ⟨[10, 101, 102, 100], 4, 2, 10⟩ 1
    (by decide) (by decide) (by decide)).1).trans (by decide)

/-- C4: when a complete line of length `len` is pending, `uart_gets`
with destination capacity `size ≤ len` fails with `-1`, writes nothing
and leaves the handle (in particular the read cursor) unchanged; and a
call with destination capacity at least `len + 1` succeeds, returning
the same `len` line bytes followed by the `NUL` terminator and advancing
the read cursor by `len mod capacity`. -/
theorem uart_gets_buffer_too_small_policy (hndl : UART_HANDLE) (rx_wr : Nat)
    (sched : List Nat)
    (hC : 0 < hndl.rxfifo_size) (hrd : hndl.rx_rd < hndl.rxfifo_size)
    (hlen : 0 < uart_can_read_line hndl rx_wr) :
    (∀ size : Nat, size ≤ uart_can_read_line hndl rx_wr →
        uart_gets hndl (rx_wr :: sched) size = some (-1, [], hndl)) ∧
      (∀ size : Nat, uart_can_read_line hndl rx_wr + 1 ≤ size →
        uart_gets hndl (rx_wr :: sched) size =
          some ((uart_can_read_line hndl rx_wr : Int),
            ((List.range (uart_can_read_line hndl rx_wr)).map fun i =>
              hndl.rxfifo.getD ((hndl.rx_rd + i) % hndl.rxfifo_size) 0) ++ [0],
            { hndl with
              rx_rd := (hndl.rx_rd + uart_can_read_line hndl rx_wr)
                % hndl.rxfifo_size })) := by
  constructor
  · intro size hsz
    simp only [uart_gets]
    rw [if_neg (by omega), if_pos hsz]
  · intro size hsz
    simp only [uart_gets]
    rw [if_neg (by omega), if_neg (by omega),
      uart_read_copy_spec (uart_can_read_line hndl rx_wr) hndl [] hC hrd]
    simp

/-- C4 witness: a pending line of length 2 (bytes `101, 10`) with
destination capacity 2 fails with `-1` and leaves the handle
untouched. -/
theorem uart_gets_buffer_too_small_policy_witness :
    uart_gets ⟨[100, 101, 10, 102], 4, 1, 10⟩ [3] 2 =
      some (-1, [], ⟨[100, 101, 10, 102], 4, 1, 10⟩) := by
  exact (uart_gets_buffer_too_small_policy ⟨[100, 101, 10, 102], 4, 1, 10⟩ 3 []
    (by decide) (by decide) (by decide)).1 2 (by decide)

/-- C9: every consumer-side mutation of the read cursor preserves its
range invariant — starting from `rx_rd` in `[0, rxfifo_size)` and a
write position in `[0, rxfifo_size)`, the cursor is again in
`[0, rxfifo_size)` after a completed `uart_read`, after a successful
`uart_gets`, and after `uart_clear_rx_buffer` (each increment is
immediately wrapped to `0` at `rxfifo_size`). -/
theorem uart_rx_rd_range_preserved (hndl : UART_HANDLE) (rx_wr : Nat)
    (hC : 0 < hndl.rxfifo_size) (hrd : hndl.rx_rd < hndl.rxfifo_size)
    (hwr : rx_wr < hndl.rxfifo_size) :
    (∀ (sched : List Nat) (size r : Nat) (out : List Nat) (h' : UART_HANDLE),
        uart_read hndl sched size = some (r, out, h') →
        h'.rx_rd < h'.rxfifo_size) ∧
      (∀ (sched : List Nat) (size : Nat) (r : Int) (out : List Nat)
          (h' : UART_HANDLE),
        uart_gets hndl sched size = some (r, out, h') → 0 ≤ r →
        h'.rx_rd < h'.rxfifo_size) ∧
      (uart_clear_rx_buffer hndl rx_wr).rx_rd
        < (uart_clear_rx_buffer hndl rx_wr).rxfifo_size := by
  refine ⟨?_, ?_, hwr⟩
  · intro sched size r out h' h
    unfold uart_read at h
    cases hloop : uart_read_loop hndl sched size [] with
    | none => rw [hloop] at h; simp at h
    | some p =>
      rw [hloop] at h
      simp only [Option.some.injEq, Prod.mk.injEq] at h
      obtain ⟨h1, h2⟩ := uart_read_loop_some_spec sched hndl size [] p.2 p.1
        hC hrd (by rw [hloop])
      rw [← h.2.2, h1]
      simpa using Nat.mod_lt _ hC
  · intro sched
    induction sched with
    | nil =>
      intro size r out h' h hr
      simp [uart_gets] at h
    | cons rx_wr1 rest ih =>
      intro size r out h' h hr
      simp only [uart_gets] at h
      by_cases hl : uart_can_read_line hndl rx_wr1 = 0
      · rw [if_pos hl] at h
        exact ih size r out h' h hr
      · rw [if_neg hl] at h
        by_cases hs : size ≤ uart_can_read_line hndl rx_wr1
        · rw [if_pos hs] at h
          simp only [Option.some.injEq, Prod.mk.injEq] at h
          rw [← h.1] at hr
          omega
        · rw [if_neg hs] at h
          rw [uart_read_copy_spec (uart_can_read_line hndl rx_wr1) hndl []
            hC hrd] at h
          simp only [Option.some.injEq, Prod.mk.injEq] at h
          rw [← h.2.2]
          simpa using Nat.mod_lt _ hC

/-- C9 witness: clearing the buffer at write position 1 leaves the read
cursor inside `[0, 4)`. -/
theorem uart_rx_rd_range_preserved_witness :
    (uart_clear_rx_buffer ⟨[100, 101, 10, 102], 4, 3, 10⟩ 1).rx_rd
      < (uart_clear_rx_buffer ⟨[100, 101, 10, 102], 4, 3, 10⟩ 1).rxfifo_size := by
  exact (uart_rx_rd_range_preserved ⟨[100, 101, 10, 102], 4, 3, 10⟩ 1
    (by decide) (by decide) (by decide)).2.2

/-- C10: `uart_gets` never overruns the caller's destination — whenever
it returns successfully with line length `r`, it has written exactly
`r + 1` bytes (the line plus one `NUL` terminator) and `r + 1 ≤ size`;
whenever it fails with the buffer-too-small error (`r < 0`), it has
written nothing. -/
theorem uart_gets_no_destination_overrun (hndl : UART_HANDLE)
    (sched : List Nat) (size : Nat) (r : Int) (out : List Nat)
    (h' : UART_HANDLE)
    (h : uart_gets hndl sched size = some (r, out, h')) :
    (0 ≤ r → out.length = r.toNat + 1 ∧ out.length ≤ size) ∧
      (r < 0 → out = []) := by
  induction sched with
  | nil => simp [uart_gets] at h
  | cons rx_wr rest ih =>
    simp only [uart_gets] at h
    by_cases hl : uart_can_read_line hndl rx_wr = 0
    · rw [if_pos hl] at h
      exact ih h
    · rw [if_neg hl] at h
      by_cases hs : size ≤ uart_can_read_line hndl rx_wr
      · rw [if_pos hs] at h
        simp only [Option.some.injEq, Prod.mk.injEq] at h
        obtain ⟨h1, h2, h3⟩ := h
        exact ⟨fun hr => by rw [← h1] at hr; omega, fun _ => h2.symm⟩
      · rw [if_neg hs] at h
        simp only [Option.some.injEq, Prod.mk.injEq] at h
        obtain ⟨h1, h2, h3⟩ := h
        have hlen := uart_read_copy_len (uart_can_read_line hndl rx_wr) hndl []
        have hout : out.length = uart_can_read_line hndl rx_wr + 1 := by
          rw [← h2, List.length_append, hlen]
          simp
        constructor
        · intro hr
          constructor
          · rw [hout, ← h1]
            omega
          · omega
        · intro hr
          rw [← h1] at hr
          omega

/-- C10 witness: a successful `uart_gets` of the 2-byte line `101, 10`
into a capacity-5 destination writes exactly 3 bytes, within bounds. -/
theorem uart_gets_no_destination_overrun_witness :
    (0 ≤ (2 : Int) → ([101, 10, 0] : List Nat).length = (2 : Int).toNat + 1
        ∧ ([101, 10, 0] : List Nat).length ≤ 5) ∧
      ((2 : Int) < 0 → ([101, 10, 0] : List Nat) = []) := by
  exact uart_gets_no_destination_overrun ⟨[100, 101, 10, 102], 4, 1, 10⟩ [3] 5
    2 [101, 10, 0] ⟨[100, 101, 10, 102], 4, 3, 10⟩ (by decide)
